import Mathlib

/-!
Verification development for the SCF streaming pipeline
(`app/parser_swap.py`, `app/parser_lp.py`, `app/feature_worker.py`,
`app/detector.py`, `app/executor_paper.py`, `app/exit_worker.py`).

Each Python worker is embedded shallowly: pure helper functions become Lean
functions over `ℚ`/`ℤ`/`String`, and the database is explicit state threaded
through the loop bodies.  Arbitrary-precision decimals and Python floats are
both modelled as `ℚ`; timestamps are `ℚ` seconds.  Every SQL statement the
worker issues is either folded into the state transformer or, where atomicity
is at issue, reified as an explicit statement list.
-/

namespace ParserSwap

/-- Value found at `uiTokenAmount.uiAmount` in a token-balance entry: either a
value Python `float(...)` accepts (a number, or a numeric string), or a truthy
value on which `float` raises (`UiVal.bad`).  A JSON `null` or an absent key is
`none` at the use site. -/
inductive UiVal where
  | num (q : ℚ)
  | bad
deriving DecidableEq, Repr

/-- One element of `preTokenBalances` / `postTokenBalances`:
`{accountIndex, mint, uiTokenAmount: {uiAmount}}`.  `mint` may be absent and
`uiAmount` may be absent or null. -/
structure TokenBalance where
  mint : Option String
  uiAmount : Option UiVal
deriving DecidableEq, Repr

/-- `amt = (((b.get('uiTokenAmount') or {}).get('uiAmount')) or 0) or 0`
followed by `float(amt)` with any exception mapped to `0.0`
(`_balances_by_mint`, parser_swap.py lines 69-74). -/
def amtOf (b : TokenBalance) : ℚ :=
  match b.uiAmount with
  | none => 0
  | some .bad => 0
  | some (.num q) => q

/-- `out[mint] = out.get(mint, 0.0) + amt` on a Python dict, modelled as an
insertion-ordered association list. -/
def dictAdd : List (Option String × ℚ) → Option String → ℚ → List (Option String × ℚ)
  | [], m, a => [(m, a)]
  | (k, v) :: rest, m, a =>
      if k = m then (k, v + a) :: rest else (k, v) :: dictAdd rest m a

/-- `dict.get(m, 0.0)`. -/
def dictGet : List (Option String × ℚ) → Option String → ℚ
  | [], _ => 0
  | (k, v) :: rest, m => if k = m then v else dictGet rest m

/-- `_balances_by_mint`: per-mint sums of `uiAmount`, with missing or
unparsable amounts contributing `0`. -/
def balances_by_mint (tb : List TokenBalance) : List (Option String × ℚ) :=
  tb.foldl (fun out b => dictAdd out b.mint (amtOf b)) []

/-- Per-mint contribution of a balance list to one mint, as a plain sum. -/
def sumForMint (tb : List TokenBalance) (m : Option String) : ℚ :=
  (tb.map (fun b => if b.mint = m then amtOf b else 0)).sum

/-- Stable descending insertion by absolute delta, matching Python
`sorted(..., key=lambda kv: abs(kv[1]), reverse=True)` (stable: ties keep
their original relative order). -/
def insAbsDesc (x : Option String × ℚ) : List (Option String × ℚ) → List (Option String × ℚ)
  | [] => [x]
  | y :: ys => if |x.2| > |y.2| then x :: y :: ys else y :: insAbsDesc x ys

/-- The sorted nonzero-delta item list of `_two_largest_opposite`. -/
def sortAbsDesc (l : List (Option String × ℚ)) : List (Option String × ℚ) :=
  l.foldr insAbsDesc []

/-- The double loop of `_two_largest_opposite`: first pair `(i, j)`, `i < j`
in sorted order, whose deltas have strictly opposite signs. -/
def findOpp : List (Option String × ℚ) → Option ((Option String × ℚ) × (Option String × ℚ))
  | [] => none
  | x :: rest =>
      match rest.find? (fun y => decide (x.2 * y.2 < 0)) with
      | some y => some (x, y)
      | none => findOpp rest

/-- `_two_largest_opposite`: keep nonzero deltas, sort by `|delta|`
descending (stable), return the first opposite-sign pair. -/
def two_largest_opposite (m : List (Option String × ℚ)) :
    Option ((Option String × ℚ) × (Option String × ℚ)) :=
  findOpp (sortAbsDesc (m.filter (fun kv => decide (kv.2 ≠ 0))))

/-- The decoded part of one `tx_raw.json` payload that parser_swap and
parser_lp read: token balances, `message.accountKeys` pubkeys, instruction
`programId`s, and `blockTime`. -/
structure Tx where
  preTokenBalances : List TokenBalance
  postTokenBalances : List TokenBalance
  accountKeys : List String
  instructionProgramIds : List String
  blockTime : Option ℤ
deriving DecidableEq, Repr

def WSOL : String := "So11111111111111111111111111111111111111112"

/-- Result record of `infer_swap`. -/
structure SwapGuess where
  base_mint : Option String
  quote_mint : Option String
  base_amt : ℚ
  quote_amt : ℚ
  price : ℚ
  side : ℤ
deriving DecidableEq, Repr

/-- Orientation guard and price/side computation (infer_swap lines 101-120):
given base/quote mints and amounts, reject non-positive amounts, price is
quote per base, side is +1 / -1 / 0 against the wrapped native mint. -/
def mkGuess (bm : Option String) (ba : ℚ) (qm : Option String) (qa : ℚ) :
    Option SwapGuess :=
  if ba ≤ 0 ∨ qa ≤ 0 then none
  else some
    { base_mint := bm, quote_mint := qm, base_amt := ba, quote_amt := qa,
      price := qa / ba,
      side := if bm ≠ some WSOL ∧ qm = some WSOL then 1
              else if bm = some WSOL then -1 else 0 }

/-- `set(pre) | set(post)` realised deterministically as the pre keys
followed by the post keys not already among them (dict/set iteration order in
CPython is unspecified for sets; the choice only affects tie-breaking among
equal absolute deltas). -/
def allMints (pre post : List (Option String × ℚ)) : List (Option String) :=
  pre.map Prod.fst ++
    (post.map Prod.fst).filter (fun m => decide (m ∉ pre.map Prod.fst))

/-- `infer_swap` (parser_swap.py lines 88-120). -/
def infer_swap (tx : Tx) : Option SwapGuess :=
  let pre := balances_by_mint tx.preTokenBalances
  let post := balances_by_mint tx.postTokenBalances
  if pre = [] ∧ post = [] then none
  else
    let deltas := (allMints pre post).map
      (fun m => (m, dictGet post m - dictGet pre m))
    match two_largest_opposite deltas with
    | none => none
    | some ((m1, d1), (m2, d2)) =>
        if 0 < d1 ∧ d2 < 0 then mkGuess m1 d1 m2 (-d2)
        else if 0 < d2 ∧ d1 < 0 then mkGuess m2 d2 m1 (-d1)
        else none

/-- Python `f"{x}"` on an optional string: `None` renders as `"None"`. -/
def optStr (m : Option String) : String := m.getD "None"

/-- One `tx_raw` row (`sig, slot, json`). -/
structure TxRawRow where
  sig : String
  slot : ℕ
  tx : Tx
deriving DecidableEq, Repr

/-- The `swap_event` row assembled in `main` (parser_swap.py lines 146-156).
`ts` is the block time when present, otherwise `none` stands for the wall
clock `now` fallback. -/
structure SwapEventRow where
  ts : Option ℤ
  pool : String
  token : Option String
  side : ℤ
  price : ℚ
  base_amt : ℚ
  quote_amt : ℚ
  slot : ℕ
  sig : String
deriving DecidableEq, Repr

/-- Database statements available to the swap-parser loop.  `upsertHasSwap`
is the `parsed_sig` has_swap upsert (the statement parser_lp issues for
has_lp, `SQL_UPSERT_PARSED`); it is part of the observation vocabulary so
that presence or absence of such writes is expressible. -/
inductive DbOp where
  | insertSwapEvent (ev : SwapEventRow)
  | upsertHasSwap (sig : String)
  | setCursor (last_slot : ℕ)
deriving DecidableEq, Repr

/-- `True` exactly on `parsed_sig` has_swap upserts. -/
def isHasSwapMark : DbOp → Bool
  | .upsertHasSwap _ => true
  | _ => false

/-- `blockTime` handling of the `ts` column: used when present and truthy
(nonzero), otherwise the wall clock (modelled `none`). -/
def tsOf (tx : Tx) : Option ℤ :=
  match tx.blockTime with
  | some bt => if bt ≠ 0 then some bt else none
  | none => none

/-- Body of the per-row `try` block of parser_swap `main` (lines 138-159):
the statements issued for one `tx_raw` row. -/
def processRow (r : TxRawRow) : List DbOp :=
  match infer_swap r.tx with
  | some g =>
      let pool_id := optStr g.base_mint ++ "-" ++ optStr g.quote_mint
      [DbOp.insertSwapEvent
        { ts := tsOf r.tx, pool := pool_id, token := g.base_mint,
          side := g.side, price := g.price, base_amt := g.base_amt,
          quote_amt := g.quote_amt, slot := r.slot, sig := r.sig }]
  | none => []

/-- One fetch-and-process iteration of parser_swap `main` over a batch of
`tx_raw` rows (slot-ascending), ending with the cursor upsert
(`SQL_SET_CURSOR`): returns the issued statements and the new `last_slot`. -/
def processBatch (rows : List TxRawRow) (last_slot : ℕ) : List DbOp × ℕ :=
  let res := rows.foldl (fun (acc : List DbOp × ℕ) r => (acc.1 ++ processRow r, r.slot))
    ([], last_slot)
  (res.1 ++ [DbOp.setCursor res.2], res.2)

end ParserSwap

namespace ParserLp

/-- Configured AMM program IDs (defaults of parser_lp.py / scf_runner.py). -/
def RAYDIUM_AMM : String := "675kPX9MHTjS2zt1qfr1NYHuzeLXfQM9H24wFSUt1Mp8"

def RAYDIUM_CLMM : String := "4hGdEStwqyqZkG2tZibsSDQ7SBy7xH2sVQ2QJVV5o4Ck"

def ORCA_AMM : String := "9WwG7VJp49r4bgx1mVQqZKkGKuX3sX5Y3F9F6w8vG8bS"

def ORCA_WHIRL : String := "whirLbMiicVq4SCVZxdrmB9otnE8u6VYzG9xH8Wc7so"

def PROGRAM_SET : List String := [RAYDIUM_AMM, RAYDIUM_CLMM, ORCA_AMM, ORCA_WHIRL]

/-- `_collect_account_keys` (parser_lp.py lines 44-63): the transaction's
account-key pubkeys plus instruction `programId`s. -/
def collect_account_keys (tx : ParserSwap.Tx) : List String :=
  tx.accountKeys ++ tx.instructionProgramIds

/-- `detect_program_id` (parser_lp.py lines 65-70): some configured program
ID present among the collected keys, if any. -/
def detect_program_id (tx : ParserSwap.Tx) : Option String :=
  PROGRAM_SET.find? (fun pid => (collect_account_keys tx).contains pid)

end ParserLp

namespace FeatureWorker

/-- One row of `SQL_SERIES` (`ts, price, base_amt, quote_amt, side` from
`swap_event`, 36 h window, ts ascending); any column may be NULL. -/
structure SwapRow where
  ts : ℤ
  price : Option ℚ
  base_amt : Option ℚ
  quote_amt : Option ℚ
  side : Option ℤ
deriving DecidableEq, Repr

/-- Inner loop of `true_range_series`: absolute price-to-price steps. -/
def trGo (prev : ℚ) : List ℚ → List ℚ
  | [] => []
  | p :: rest => |p - prev| :: trGo p rest

/-- `true_range_series` (feature_worker.py lines 49-58). -/
def true_range_series : List ℚ → List ℚ
  | [] => []
  | p :: rest => trGo p rest

/-- `atr_pct` (feature_worker.py lines 60-71).  The `window_secs` argument is
accepted and unused, as in the source. -/
def atr_pct (prices : List ℚ) (windowSecs : ℕ) : Option ℚ :=
  if prices.length < 3 then none
  else
    let trs := true_range_series prices
    if trs = [] then none
    else
      let atr := trs.sum / trs.length
      let meanp := prices.sum / prices.length
      if meanp ≤ 0 then none else some (atr / meanp * 100)

/-- `1 if s and s > 0 else -1 if s and s < 0 else 0` (a NULL side is 0). -/
def signOf : Option ℤ → ℤ
  | none => 0
  | some s => if 0 < s then 1 else if s < 0 then -1 else 0

/-- Cumulative signed base-volume series: `cvd += sign * (a or 0.0)`,
appending the running value after every element. -/
def cvdGo (cvd : ℚ) : List (Option ℤ × Option ℚ) → List ℚ
  | [] => []
  | (s, a) :: rest =>
      let c := cvd + signOf s * a.getD 0
      c :: cvdGo c rest

/-- `cvd_slope` (feature_worker.py lines 73-84).  `series[-1]` is index
`length - 1` and `series[max(0, len(series)-5)]` is index `length - 5`
(ℕ-truncated).  `ts_prices` is accepted and unused, as in the source. -/
def cvd_slope (tsPrices : List ℤ) (sides : List (Option ℤ))
    (baseAmts : List (Option ℚ)) : Option ℚ :=
  let series := cvdGo 0 (sides.zip baseAmts)
  if series.length < 3 then none
  else some ((series.getD (series.length - 1) 0 - series.getD (series.length - 5) 0) / 5)

/-- Signed contribution of one (side, base_amt) pair. -/
def signedAmt (p : Option ℤ × Option ℚ) : ℚ := signOf p.1 * p.2.getD 0

/-- The cumulative-volume-delta value after element `k` (0-based): the sum of
the signed base amounts of the first `k + 1` elements.  Reference definition
used to state properties of `cvd_slope`. -/
def cvdAt (l : List (Option ℤ × Option ℚ)) (k : ℕ) : ℚ :=
  ((l.take (k + 1)).map signedAmt).sum

/-- The slope formula exactly as the specification words it:
`(cvd[last] - cvd[max(0, last - 5)]) / 5` with `last` the index of the final
element, `none` below 3 elements.  (Spec-following definition, for
comparison with `cvd_slope`.) -/
def cvd_slope_specform (sides : List (Option ℤ)) (baseAmts : List (Option ℚ)) : Option ℚ :=
  let z := sides.zip baseAmts
  if z.length < 3 then none
  else some ((cvdAt z (z.length - 1) - cvdAt z (z.length - 1 - 5)) / 5)

/-- `r['price'] and float(r['price']) > 0`: NULL and 0 are falsy, so the row
counts only when the price is strictly positive. -/
def posPrice (r : SwapRow) : Bool := decide (0 < r.price.getD 0)

/-- The `features_latest` upsert payload of `compute_for_pool`. -/
structure FeaturesUpsert where
  pool : String
  atr_pct_15m : Option ℚ
  atr_pct_24h : Option ℚ
  vc_ratio : Option ℚ
  cvd_slope_5m : Option ℚ
  obs : ℕ
deriving DecidableEq, Repr

/-- `compute_for_pool` (feature_worker.py lines 86-101): `none` when the
pool's series is below the data thresholds (no upsert issued), otherwise the
upsert row.  `(atr15/atr24) if (atr15 and atr24 and atr24>0) else None`
requires both values non-null, `atr15` nonzero (truthiness) and `atr24`
positive. -/
def compute_for_pool (poolId : String) (rows : List SwapRow) : Option FeaturesUpsert :=
  if rows.length < 5 then none
  else
    let prices := (rows.filter posPrice).map (fun r => r.price.getD 0)
    if prices.length < 5 then none
    else
      let sides := rows.map (fun r => r.side)
      let baseAmts := rows.map (fun r => some (r.base_amt.getD 0))
      let atr15 := atr_pct prices (15 * 60)
      let atr24 := atr_pct prices (24 * 3600)
      let ratio :=
        match atr15, atr24 with
        | some a, some b => if a ≠ 0 ∧ 0 < b then some (a / b) else none
        | _, _ => none
      let cvd5 := cvd_slope (rows.map (fun r => r.ts)) sides baseAmts
      some { pool := poolId, atr_pct_15m := atr15, atr_pct_24h := atr24,
             vc_ratio := ratio, cvd_slope_5m := cvd5, obs := rows.length }

/-- `SQL_UPSERT` on the one-row-per-pool `features_latest` table. -/
def upsertFeatures (tbl : List FeaturesUpsert) (u : FeaturesUpsert) : List FeaturesUpsert :=
  if tbl.any (fun v => v.pool == u.pool) then
    tbl.map (fun v => if v.pool == u.pool then u else v)
  else tbl ++ [u]

/-- One pool's slice of a feature-worker tick: upsert when
`compute_for_pool` produced a row, otherwise leave the table untouched. -/
def tick_pool (tbl : List FeaturesUpsert) (poolId : String) (rows : List SwapRow) :
    List FeaturesUpsert :=
  match compute_for_pool poolId rows with
  | none => tbl
  | some u => upsertFeatures tbl u

end FeatureWorker

namespace Detector

/-- One `features_latest` row as the detector reads it (`SELECT *`): the
candidate feature columns of `FEATURE_KEYS`, each possibly NULL, plus the
pool identifier. -/
structure FeatureRow where
  pool : Option String
  atr15 : Option ℚ
  cvd_slope_1m : Option ℚ
  depth_1p0 : Option ℚ
  wc_quality_arrivals : Option ℚ
  watchers_slope : Option ℚ
deriving DecidableEq, Repr

/-- The five tunable thresholds (env defaults: 0.015, 0.001, 5000, 0.6, 0.5). -/
structure Thresholds where
  vcMax : ℚ
  ofsMax : ℚ
  ltMax : ℚ
  wcMin : ℚ
  rqMax : ℚ
deriving DecidableEq, Repr

def defaultThresholds : Thresholds :=
  { vcMax := 15 / 1000, ofsMax := 1 / 1000, ltMax := 5000,
    wcMin := 6 / 10, rqMax := 5 / 10 }

/-- `rule_pass` (detector.py lines 83-110).  Each feature key list of
`FEATURE_KEYS` holds one column, so `pick` is the field itself.  The numeric
cast cannot fail on ℚ-valued columns, so the `type_cast_fail` branch is
unreachable in the model.  Threshold rendering in the pass reason differs
from Python float formatting (ℚ `toString`); no claim depends on it. -/
def rule_pass (th : Thresholds) (r : FeatureRow) : Bool × String :=
  let missing :=
    (if r.atr15.isNone then ["vc"] else []) ++
    (if r.cvd_slope_1m.isNone then ["ofs"] else []) ++
    (if r.depth_1p0.isNone then ["lt"] else []) ++
    (if r.wc_quality_arrivals.isNone then ["wc"] else []) ++
    (if r.watchers_slope.isNone then ["rq"] else [])
  if missing ≠ [] then (false, "missing:" ++ String.intercalate "," missing)
  else
    let vc := r.atr15.getD 0
    let ofs := r.cvd_slope_1m.getD 0
    let lt := r.depth_1p0.getD 0
    let wc := r.wc_quality_arrivals.getD 0
    let rq := r.watchers_slope.getD 0
    let failed :=
      (if vc ≤ th.vcMax then [] else ["VC"]) ++
      (if |ofs| ≤ th.ofsMax then [] else ["OFS"]) ++
      (if lt ≤ th.ltMax then [] else ["LT"]) ++
      (if th.wcMin ≤ wc then [] else ["WC"]) ++
      (if rq ≤ th.rqMax then [] else ["RQ"])
    if failed ≠ [] then (false, "fail:" ++ String.intercalate "," failed)
    else (true, "SCF5:vc<=" ++ toString th.vcMax ++ ",|ofs|<=" ++ toString th.ofsMax
                ++ ",lt<=" ++ toString th.ltMax ++ ",wc>=" ++ toString th.wcMin
                ++ ",rq<=" ++ toString th.rqMax)

/-- One `detector_signal` row (`id BIGSERIAL, pool, signal_type, reason,
created_at`); `created_at` in seconds. -/
structure SignalRow where
  id : ℕ
  pool : String
  signal_type : String
  reason : String
  created_at : ℚ
deriving DecidableEq, Repr

/-- `INSERT_SIGNAL_SQL` (detector.py lines 70-81): one guarded statement —
insert unless a signal with the same `(pool, signal_type)` was created within
the last `dedup` seconds (`created_at >= NOW() - dedup`).  The serial id is
the current table length. -/
def insert_signal (dedup now : ℚ) (pool stype reason : String)
    (st : List SignalRow) : List SignalRow :=
  if st.any (fun s => s.pool == pool && s.signal_type == stype &&
      decide (now - dedup ≤ s.created_at)) then st
  else st ++ [{ id := st.length, pool := pool, signal_type := stype,
                reason := reason, created_at := now }]

def SIGNAL_TYPE : String := "long"

/-- Python `str.strip()`: drop leading and trailing whitespace (structural
char-list form of `String.trim`). -/
def pyStrip (s : String) : String :=
  ⟨((s.data.dropWhile Char.isWhitespace).reverse.dropWhile Char.isWhitespace).reverse⟩

/-- One detector poll (detector.py lines 119-141) over a `features_latest`
snapshot at time `now`: for each row whose stripped pool is nonempty and
which passes `rule_pass`, run the guarded insert. -/
def detectorTick (th : Thresholds) (dedup now : ℚ) (snapshot : List FeatureRow)
    (st : List SignalRow) : List SignalRow :=
  snapshot.foldl (fun st r =>
    let pool := pyStrip (r.pool.getD "")
    if pool = "" then st
    else
      let pr := rule_pass th r
      if pr.1 then insert_signal dedup now pool SIGNAL_TYPE pr.2 st else st) st

/-- Number of signals for one `(pool, signal_type)` key. -/
def countSig (st : List SignalRow) (pool stype : String) : ℕ :=
  (st.filter (fun s => s.pool == pool && s.signal_type == stype)).length

/-- Dedup-window separation: any two distinct signals with the same
`(pool, signal_type)` are more than `dedup` seconds apart, so no window of
length `dedup` contains two of them. -/
def Sep (dedup : ℚ) (st : List SignalRow) : Prop :=
  st.Pairwise (fun a b => a.pool = b.pool → a.signal_type = b.signal_type →
    dedup < |a.created_at - b.created_at|)

/-- All stored timestamps are at or before `t`. -/
def Bounded (t : ℚ) (st : List SignalRow) : Prop :=
  ∀ s ∈ st, s.created_at ≤ t

end Detector

namespace Executor

/-- One `detector_signal` row as the executor selects it
(`SELECT id, pool, signal_type, reason`). -/
structure DetSignal where
  id : ℕ
  pool : String
  signal_type : String
  reason : Option String
deriving DecidableEq, Repr

/-- One `position` row with the columns the executor writes
(executor_paper.py `INSERT_POSITION_SQL`); the JSONB `meta` object is split
into its three keys. -/
structure PositionRow where
  id : ℕ
  pool : String
  token : String
  size_sol : ℚ
  entry_px : ℚ
  slippage_bps : ℚ
  state : String
  status : String
  signal_type : String
  reason : Option String
  entry_price : ℚ
  meta_signal_id : String
  meta_source : String
  meta_mode : String
deriving DecidableEq, Repr

/-- One `fill` row as the executor writes it. -/
structure FillRow where
  pos_id : ℕ
  side : String
  px : ℚ
  qty : ℚ
deriving DecidableEq, Repr

/-- Executor-visible database state; `next_uuid` abstracts the `uuid4()`
fresh-identifier source. -/
structure ExecState where
  positions : List PositionRow
  fills : List FillRow
  next_uuid : ℕ
deriving DecidableEq, Repr

/-- `EXISTS_SQL`: `SELECT 1 FROM position WHERE (meta->>'signal_id') = $1`. -/
def signal_exists (ps : List PositionRow) (sid : String) : Bool :=
  ps.any (fun p => p.meta_signal_id == sid)

/-- Loop body of `process_batch` (executor_paper.py lines 55-92) for one
signal: skip when a position already references `str(s.id)`, otherwise insert
the paper position (`size 0`, `entry_px 1.0`, `slippage 0`,
`state/status 'open'`) and its entry fill. -/
def openForSignal (s : DetSignal) (st : ExecState) : ExecState :=
  if signal_exists st.positions (toString s.id) then st
  else
    let pos : PositionRow :=
      { id := st.next_uuid, pool := s.pool, token := "SOL", size_sol := 0,
        entry_px := 1, slippage_bps := 0, state := "open", status := "open",
        signal_type := s.signal_type, reason := s.reason, entry_price := 1,
        meta_signal_id := toString s.id, meta_source := "detector_signal",
        meta_mode := "paper" }
    { positions := st.positions ++ [pos],
      fills := st.fills ++ [{ pos_id := st.next_uuid, side := "entry", px := 1, qty := 0 }],
      next_uuid := st.next_uuid + 1 }

/-- `process_batch` (executor_paper.py lines 51-94); `executor.py`'s `main`
loop body is the same dedup-then-insert logic. -/
def process_batch (signals : List DetSignal) (st : ExecState) : ExecState :=
  signals.foldl (fun st s => openForSignal s st) st

/-- Executor run: one `process_batch` per polling tick. -/
def runBatches (batches : List (List DetSignal)) (st : ExecState) : ExecState :=
  batches.foldl (fun st b => process_batch b st) st

/-- Number of position rows whose `meta.signal_id` is `sid`. -/
def countSid (ps : List PositionRow) (sid : String) : ℕ :=
  (ps.filter (fun p => p.meta_signal_id == sid)).length

end Executor

namespace ExitWorker

/-- A partial-exit tag: the JSONB meta key `partial_{meta_tag}_{level}`
abstracted to its components (Python's float rendering is injective, so key
equality coincides with component equality). -/
structure Tag where
  mtag : String
  level : ℚ
deriving DecidableEq, Repr

/-- One `fill` row as the exit worker writes it. -/
structure XFill where
  side : String
  px : ℚ
  qty : ℚ
deriving DecidableEq, Repr

/-- The JSONB meta payload of an `exit_event` row: either the
`{level, ratio, px}` of a partial, or the `{entry_px, exit_px, *_mult}` of a
full close. -/
inductive ExitMeta where
  | partialInfo (level ratio px : ℚ)
  | closeInfo (entry_px exit_px mult : ℚ)
deriving DecidableEq, Repr

/-- One `exit_event` row. -/
structure ExitRow where
  reason : String
  meta : ExitMeta
deriving DecidableEq, Repr

/-- One position together with its fills and exit events (the `fill` and
`exit_event` rows keyed by this position's id). -/
structure PosState where
  pool : String
  entry_px : ℚ
  size_sol : ℚ
  state : String
  meta : List Tag
  fills : List XFill
  exits : List ExitRow
deriving DecidableEq, Repr

/-- One SQL statement of `_apply_partial`'s mutation sequence. -/
inductive Stmt where
  | insertFill (f : XFill)
  | updateSizeSub (q : ℚ)
  | mergeMetaTag (t : Tag)
  | insertExitRow (e : ExitRow)
deriving DecidableEq, Repr

/-- Effect of one statement on the position's database state. -/
def applyStmt (st : PosState) : Stmt → PosState
  | .insertFill f => { st with fills := st.fills ++ [f] }
  | .updateSizeSub q => { st with size_sol := st.size_sol - q }
  | .mergeMetaTag t => { st with meta := st.meta ++ [t] }
  | .insertExitRow e => { st with exits := st.exits ++ [e] }

/-- Effect of one committed transaction (a statement list). -/
def applyTxn (st : PosState) (txn : List Stmt) : PosState :=
  txn.foldl applyStmt st

/-- Effect of a sequence of committed transactions.  An interruption between
transactions leaves exactly a prefix applied. -/
def applyTxns (st : PosState) (txns : List (List Stmt)) : PosState :=
  txns.foldl applyTxn st

/-- The `for level, ratio in partials` loop of `_apply_partial`
(exit_worker.py lines 114-127).  `taken` is the tag set read once at the top
of the call and NOT refreshed inside the loop.  Each fired level issues four
`conn.execute` statements; the connection has no surrounding transaction, so
each statement is its own autocommitted transaction (hence four singleton
transactions per fired level).  `qty` is re-read from the row before every
fire (`SELECT size_sol`). -/
def applyLevelsGo (taken : List Tag) (curPx mul : ℚ) (sideLabel reasonLbl metaTag : String) :
    List (ℚ × ℚ) → PosState → PosState × List (List Stmt)
  | [], st => (st, [])
  | (level, ratio) :: rest, st =>
      if level ≤ mul ∧ (⟨metaTag, level⟩ : Tag) ∉ taken then
        let qty := st.size_sol
        let takeQty := qty * ratio
        let txns : List (List Stmt) :=
          [[.insertFill { side := sideLabel, px := curPx, qty := takeQty }],
           [.updateSizeSub takeQty],
           [.mergeMetaTag ⟨metaTag, level⟩],
           [.insertExitRow { reason := reasonLbl ++ "_PARTIAL",
                             meta := .partialInfo level ratio curPx }]]
        let st1 := applyTxns st txns
        let res := applyLevelsGo taken curPx mul sideLabel reasonLbl metaTag rest st1
        (res.1, txns ++ res.2)
      else applyLevelsGo taken curPx mul sideLabel reasonLbl metaTag rest st

/-- `_apply_partial` (exit_worker.py lines 99-127): read the taken-tag set
from `meta`, compute `mul = cur_px / max(entry_px, 1e-12)`, then run the
level loop.  Returns the final state and the issued transaction sequence. -/
def applyLevels (entryPx curPx : ℚ) (levels : List (ℚ × ℚ))
    (sideLabel reasonLbl metaTag : String) (st : PosState) :
    PosState × List (List Stmt) :=
  let taken := st.meta
  let mul := curPx / max entryPx (1 / 10 ^ 12)
  applyLevelsGo taken curPx mul sideLabel reasonLbl metaTag levels st

/-- `_close_full` (exit_worker.py lines 129-136): fill the remaining
`size_sol` at the current price, set `state='CLOSED'`, append the exit
event. -/
def close_full (sideLabel : String) (curPx : ℚ) (reason : String) (meta : ExitMeta)
    (st : PosState) : PosState :=
  { st with
    fills := st.fills ++ [{ side := sideLabel, px := curPx, qty := st.size_sol }],
    state := "CLOSED",
    exits := st.exits ++ [{ reason := reason, meta := meta }] }

/-- The partial-exit phase of one tick: the two `_apply_partial` calls of
`main` (exit_worker.py lines 157-162), each only when its configured list is
nonempty; both receive the position row's `entry_px`. -/
def partialsPhase (entryPx curPx : ℚ) (tpLevels slLevels : List (ℚ × ℚ))
    (st : PosState) : PosState :=
  let st1 := if tpLevels ≠ [] then (applyLevels entryPx curPx tpLevels "SELL" "TP" "TP" st).1 else st
  let st2 := if slLevels ≠ [] then (applyLevels entryPx curPx slLevels "SELL" "SL" "SL" st1).1 else st1
  st2

/-- Loop body of the exit worker's `main` for one position (exit_worker.py
lines 146-169).  Positions are selected with `WHERE state='OPEN'`; a NULL or
non-positive latest price skips the position; partials run first, then the
full-close checks `cur_px >= tp_px` / `cur_px <= sl_px`. -/
def tickPos (tpMult slMult : ℚ) (tpLevels slLevels : List (ℚ × ℚ))
    (latestPx : Option ℚ) (st : PosState) : PosState :=
  if st.state ≠ "OPEN" then st
  else
    match latestPx with
    | none => st
    | some px =>
        if px ≤ 0 then st
        else
          let tp_px := st.entry_px * tpMult
          let sl_px := st.entry_px * slMult
          let st2 := partialsPhase st.entry_px px tpLevels slLevels st
          if tp_px ≤ px then
            close_full "SELL" px "TP_HIT" (.closeInfo st.entry_px px tpMult) st2
          else if px ≤ sl_px then
            close_full "SELL" px "SL_HIT" (.closeInfo st.entry_px px slMult) st2
          else st2

/-- A full exit-worker run over one position: one `tickPos` per poll, fed by
the latest observed price of each tick. -/
def runTicks (tpMult slMult : ℚ) (tpLevels slLevels : List (ℚ × ℚ))
    (pxs : List (Option ℚ)) (st : PosState) : PosState :=
  pxs.foldl (fun st px => tickPos tpMult slMult tpLevels slLevels px st) st

/-- Number of recorded partial exits of one side (`TP`/`SL`) at one level. -/
def partialsCount (st : PosState) (reasonLbl : String) (L : ℚ) : ℕ :=
  (st.exits.filter (fun e => e.reason == reasonLbl ++ "_PARTIAL" &&
    match e.meta with
    | .partialInfo lv _ _ => lv == L
    | _ => false)).length

end ExitWorker

namespace ExitWorker

/-- `partialsCount` on a bare `exit_event` list. -/
def partialsCountL (exits : List ExitRow) (reasonLbl : String) (L : ℚ) : ℕ :=
  (exits.filter (fun e => e.reason == reasonLbl ++ "_PARTIAL" &&
    match e.meta with
    | .partialInfo lv _ _ => lv == L
    | _ => false)).length

/-- Partial-exit bookkeeping invariant: per side and level at most one
partial exit is recorded, and a recorded partial's tag is present in the
position's meta. -/
def TagInv (st : PosState) : Prop :=
  ∀ L : ℚ,
    (partialsCount st "TP" L ≤ 1 ∧
      (1 ≤ partialsCount st "TP" L → (⟨"TP", L⟩ : Tag) ∈ st.meta)) ∧
    (partialsCount st "SL" L ≤ 1 ∧
      (1 ≤ partialsCount st "SL" L → (⟨"SL", L⟩ : Tag) ∈ st.meta))

/-- Statement classifiers for the atomicity analysis. -/
def isFillStmt : Stmt → Bool
  | .insertFill _ => true
  | _ => false

def isSizeSubStmt : Stmt → Bool
  | .updateSizeSub _ => true
  | _ => false

def isMetaMergeStmt : Stmt → Bool
  | .mergeMetaTag _ => true
  | _ => false

/-- A fresh open position used as concrete input. -/
def posFresh : PosState :=
  { pool := "p", entry_px := 1, size_sol := 10, state := "OPEN",
    meta := [], fills := [], exits := [] }

/-- Concrete input for the duplicate-level run: size 8, entry 1. -/
def posEight : PosState :=
  { pool := "p", entry_px := 1, size_sol := 8, state := "OPEN",
    meta := [], fills := [], exits := [] }

end ExitWorker

namespace Detector

/-- No signal for `(p, long)` inside the dedup window ending at `now`. -/
def NoRecent (p : String) (dedup now : ℚ) (st : List SignalRow) : Prop :=
  ∀ s ∈ st, s.pool = p → s.signal_type = "long" → s.created_at < now - dedup

/-- A feature row passing all five default thresholds, for concrete runs. -/
def rowPass : FeatureRow :=
  { pool := some "AAA", atr15 := some (1 / 100), cvd_slope_1m := some (1 / 2000),
    depth_1p0 := some 1000, wc_quality_arrivals := some (7 / 10),
    watchers_slope := some (1 / 5) }

end Detector

namespace ParserSwap

/-- Concrete transaction: a two-mint swap whose account keys contain the
configured Raydium AMM program ID. -/
def txWithProgram : Tx :=
  { preTokenBalances := [⟨some "MINTA", some (.num 5)⟩, ⟨some "MINTB", some (.num 100)⟩],
    postTokenBalances := [⟨some "MINTA", some (.num 9)⟩, ⟨some "MINTB", some (.num 90)⟩],
    accountKeys := [ParserLp.RAYDIUM_AMM],
    instructionProgramIds := [],
    blockTime := some 1700000000 }

/-- The swap_event row `processRow` emits for `txWithProgram` at slot 42. -/
def evWithProgram : SwapEventRow :=
  { ts := some 1700000000, pool := "MINTA-MINTB", token := some "MINTA",
    side := 0, price := 5 / 2, base_amt := 4, quote_amt := 10,
    slot := 42, sig := "sig6" }

/-- Concrete `tx_raw` row with no inferrable opposite-sign pair (both mints
gain), so the parser emits nothing for it. -/
def rowNoSwap : TxRawRow :=
  { sig := "sigskip", slot := 7,
    tx := { preTokenBalances := [⟨some "MINTA", some (.num 1)⟩],
            postTokenBalances := [⟨some "MINTA", some (.num 2)⟩],
            accountKeys := [], instructionProgramIds := [], blockTime := none } }

end ParserSwap

namespace FeatureWorker

/-- The six-element unit-buy series used against `cvd_slope`. -/
def sidesSix : List (Option ℤ) := [some 1, some 1, some 1, some 1, some 1, some 1]

/-- The matching base amounts. -/
def amtsSix : List (Option ℚ) := [some 1, some 1, some 1, some 1, some 1, some 1]

end FeatureWorker

namespace Detector

/-- The per-row body of the detector poll loop. -/
def detectorStep (th : Thresholds) (dedup now : ℚ) (st : List SignalRow)
    (r : FeatureRow) : List SignalRow :=
  let pool := pyStrip (r.pool.getD "")
  if pool = "" then st
  else
    let pr := rule_pass th r
    if pr.1 then insert_signal dedup now pool SIGNAL_TYPE pr.2 st else st

end Detector

namespace ParserSwap

theorem dictGet_dictAdd (out : List (Option String × ℚ)) (m : Option String) (a : ℚ)
    (mm : Option String) :
    dictGet (dictAdd out m a) mm = dictGet out mm + (if m = mm then a else 0) := by
  induction out with
  | nil =>
      simp only [dictAdd, dictGet]
      split_ifs <;> simp
  | cons kv rest ih =>
      obtain ⟨k, v⟩ := kv
      by_cases hkm : k = m
      · subst hkm
        simp only [dictAdd, if_pos rfl, dictGet]
        by_cases hm : k = mm <;> simp [hm, add_assoc]
      · simp only [dictAdd, if_neg hkm, dictGet]
        by_cases hm : k = mm
        · have hmmm : m ≠ mm := fun h => hkm (by rw [hm, h])
          simp [hm, hmmm]
        · simp [hm, ih]

theorem balances_fold (tb : List TokenBalance) (out : List (Option String × ℚ))
    (m : Option String) :
    dictGet (tb.foldl (fun out b => dictAdd out b.mint (amtOf b)) out) m
      = dictGet out m + sumForMint tb m := by
  induction tb generalizing out with
  | nil => simp [sumForMint]
  | cons b rest ih =>
      simp only [List.foldl_cons, sumForMint, List.map_cons, List.sum_cons]
      rw [ih, dictGet_dictAdd]
      simp only [sumForMint]
      ring

/-- C10: `_balances_by_mint` treats a missing or unparsable
`uiTokenAmount.uiAmount` as 0: a balance entry whose amount is null/absent or
non-numeric contributes nothing to its mint's per-mint sum (hence nothing to
any mint delta), wherever it sits in the balance list, and the computation
stays total (no error path). -/
theorem balances_null_noop (l1 l2 : List TokenBalance) (e : TokenBalance)
    (he : e.uiAmount = none ∨ e.uiAmount = some UiVal.bad) (m : Option String) :
    dictGet (balances_by_mint (l1 ++ e :: l2)) m
      = dictGet (balances_by_mint (l1 ++ l2)) m := by
  have hz : amtOf e = 0 := by rcases he with h | h <;> simp [amtOf, h]
  simp only [balances_by_mint]
  rw [balances_fold, balances_fold]
  simp only [sumForMint, List.map_append, List.sum_append, List.map_cons, List.sum_cons, hz]
  simp

theorem balances_null_noop_witness :
    dictGet (balances_by_mint [⟨some "M", some (.num 3)⟩, ⟨some "M", none⟩]) (some "M")
      = dictGet (balances_by_mint [⟨some "M", some (.num 3)⟩]) (some "M") :=
  balances_null_noop [⟨some "M", some (.num 3)⟩] [] ⟨some "M", none⟩ (Or.inl rfl) (some "M")

end ParserSwap

namespace FeatureWorker

/-- C9: the Feature Worker upserts `features_latest` for a pool exactly when
the pool's 36-hour series has at least 5 rows and at least 5 rows with a
strictly positive price; below either threshold nothing is computed and the
table (hence the pool's previous row) is left unchanged. -/
theorem feature_upsert_threshold (pid : String) (rows : List SwapRow)
    (tbl : List FeaturesUpsert) :
    ((compute_for_pool pid rows).isSome = true
        ↔ 5 ≤ rows.length ∧ 5 ≤ (rows.filter posPrice).length)
    ∧ (rows.length < 5 ∨ (rows.filter posPrice).length < 5 →
        tick_pool tbl pid rows = tbl) := by
  have key : (compute_for_pool pid rows).isSome = true
      ↔ 5 ≤ rows.length ∧ 5 ≤ (rows.filter posPrice).length := by
    by_cases h1 : rows.length < 5
    · simp only [compute_for_pool, if_pos h1]
      simp
      omega
    · by_cases h2 : (rows.filter posPrice).length < 5
      · simp only [compute_for_pool, if_neg h1, List.length_map, if_pos h2]
        simp
        omega
      · simp only [compute_for_pool, if_neg h1, List.length_map, if_neg h2]
        simp
        omega
  refine ⟨key, fun h => ?_⟩
  have hnone : compute_for_pool pid rows = none := by
    cases hs : compute_for_pool pid rows with
    | none => rfl
    | some u =>
        exfalso
        have hsome : (compute_for_pool pid rows).isSome = true := by simp [hs]
        rcases key.mp hsome with ⟨ha, hb⟩
        rcases h with h | h <;> omega
  simp [tick_pool, hnone]

theorem feature_upsert_threshold_witness :
    (compute_for_pool "x"
      [⟨0, some 1, some 1, some 1, some 1⟩, ⟨1, some 2, some 1, some 1, some 1⟩,
       ⟨2, some 3, some 1, some 1, some 1⟩, ⟨3, some 4, some 1, some 1, some 1⟩,
       ⟨4, some 5, some 1, some 1, some 1⟩]).isSome = true
    ∧ tick_pool ([] : List FeaturesUpsert) "x" [⟨0, some 1, some 1, some 1, some 1⟩] = [] :=
  ⟨(feature_upsert_threshold "x"
      [⟨0, some 1, some 1, some 1, some 1⟩, ⟨1, some 2, some 1, some 1, some 1⟩,
       ⟨2, some 3, some 1, some 1, some 1⟩, ⟨3, some 4, some 1, some 1, some 1⟩,
       ⟨4, some 5, some 1, some 1, some 1⟩] []).1.mpr (by decide),
   (feature_upsert_threshold "x" [⟨0, some 1, some 1, some 1, some 1⟩] []).2
      (by decide)⟩

theorem cvdGo_length (c : ℚ) (l : List (Option ℤ × Option ℚ)) :
    (cvdGo c l).length = l.length := by
  induction l generalizing c with
  | nil => rfl
  | cons p rest ih => obtain ⟨s, a⟩ := p; simp [cvdGo, ih]

theorem cvdGo_getD (l : List (Option ℤ × Option ℚ)) (c : ℚ) (k : ℕ)
    (hk : k < l.length) :
    (cvdGo c l).getD k 0 = c + cvdAt l k := by
  induction l generalizing c k with
  | nil => simp at hk
  | cons p rest ih =>
      obtain ⟨s, a⟩ := p
      cases k with
      | zero =>
          simp [cvdGo, cvdAt, signedAmt]
      | succ k =>
          simp only [cvdGo, List.getD_cons_succ]
          rw [ih _ _ (by simpa using Nat.lt_of_succ_lt_succ (by simpa using hk))]
          simp only [cvdAt, List.take_succ_cons, List.map_cons, List.sum_cons, signedAmt]
          ring

/-- C8 (counterexample): on a six-element series of unit buys the code's
slope is (cvd[5] - cvd[1]) / 5 = 4/5, while the claimed formula
(cvd[last] - cvd[max(0, last - 5)]) / 5 gives (cvd[5] - cvd[0]) / 5 = 1. -/
theorem cvd_slope_off_by_one_cex :
    3 ≤ (sidesSix.zip amtsSix).length
    ∧ cvd_slope [] sidesSix amtsSix = some (4 / 5)
    ∧ cvd_slope_specform sidesSix amtsSix = some 1
    ∧ (4 / 5 : ℚ) ≠ 1 :=
  ⟨by decide,
   by norm_num [cvd_slope, cvdGo, signOf, sidesSix, amtsSix],
   by norm_num [cvd_slope_specform, cvdAt, signedAmt, signOf, sidesSix, amtsSix],
   by norm_num⟩

/-- C8 (amended): for a zipped series of length ≥ 3, `cvd_slope` equals
(cvd[last] - cvd[max(0, last - 4)]) / 5 — the lower index is `length - 5`,
i.e. `last - 4`, not `last - 5` — where `cvdAt` is the running cumulative sum
of side-signed base amounts. -/
theorem cvd_slope_last_minus_four (ts : List ℤ) (sides : List (Option ℤ))
    (amts : List (Option ℚ)) (h : 3 ≤ (sides.zip amts).length) :
    cvd_slope ts sides amts =
      some ((cvdAt (sides.zip amts) ((sides.zip amts).length - 1)
           - cvdAt (sides.zip amts) ((sides.zip amts).length - 5)) / 5) := by
  have hlen : (cvdGo 0 (sides.zip amts)).length = (sides.zip amts).length :=
    cvdGo_length 0 (sides.zip amts)
  simp only [cvd_slope, hlen]
  rw [if_neg (by omega)]
  rw [cvdGo_getD _ _ _ (by omega), cvdGo_getD _ _ _ (by omega)]
  simp

theorem cvd_slope_last_minus_four_witness :
    cvd_slope [] sidesSix amtsSix =
      some ((cvdAt (sidesSix.zip amtsSix) ((sidesSix.zip amtsSix).length - 1)
           - cvdAt (sidesSix.zip amtsSix) ((sidesSix.zip amtsSix).length - 5)) / 5) :=
  cvd_slope_last_minus_four [] sidesSix amtsSix (by decide)

end FeatureWorker

namespace ParserSwap

theorem processRow_txWithProgram :
    processRow ⟨"sig6", 42, txWithProgram⟩ = [DbOp.insertSwapEvent evWithProgram] := by
  have h1 : balances_by_mint txWithProgram.preTokenBalances
      = [(some "MINTA", 5), (some "MINTB", 100)] := by
    simp (disch := decide) [txWithProgram, balances_by_mint, dictAdd, amtOf]
  have h2 : balances_by_mint txWithProgram.postTokenBalances
      = [(some "MINTA", 9), (some "MINTB", 90)] := by
    simp (disch := decide) [txWithProgram, balances_by_mint, dictAdd, amtOf]
  simp only [processRow, infer_swap, h1, h2]
  simp (disch := decide) [allMints, dictGet, tsOf, optStr, txWithProgram]
  norm_num
  simp [two_largest_opposite, sortAbsDesc]
  norm_num [insAbsDesc]
  simp [findOpp]
  norm_num [mkGuess, evWithProgram, WSOL]
  decide

theorem processRow_rowNoSwap : processRow rowNoSwap = [] := by
  have h1 : balances_by_mint rowNoSwap.tx.preTokenBalances = [(some "MINTA", 1)] := by
    simp (disch := decide) [rowNoSwap, balances_by_mint, dictAdd, amtOf]
  have h2 : balances_by_mint rowNoSwap.tx.postTokenBalances = [(some "MINTA", 2)] := by
    simp (disch := decide) [rowNoSwap, balances_by_mint, dictAdd, amtOf]
  simp only [processRow, infer_swap, h1, h2]
  simp (disch := decide) [allMints, dictGet]
  norm_num [two_largest_opposite, sortAbsDesc, insAbsDesc, findOpp]

/-- C7 (counterexample): the swap parser processes `rowNoSwap` (its cursor
advances past slot 7 and nothing is emitted) and also a row that does emit a
SwapEvent, yet in neither case does any `parsed_sig.has_swap` upsert appear
among the issued statements. -/
theorem swap_parser_no_mark_cex :
    (processBatch [rowNoSwap] 0).2 = 7
    ∧ processRow rowNoSwap = []
    ∧ (processBatch [rowNoSwap] 0).1.countP isHasSwapMark = 0
    ∧ DbOp.insertSwapEvent evWithProgram ∈ (processBatch [⟨"sig6", 42, txWithProgram⟩] 0).1
    ∧ (processBatch [⟨"sig6", 42, txWithProgram⟩] 0).1.countP isHasSwapMark = 0 :=
  ⟨by simp [processBatch, processRow_rowNoSwap, rowNoSwap],
   processRow_rowNoSwap,
   by simp [processBatch, processRow_rowNoSwap, isHasSwapMark],
   by simp [processBatch, processRow_txWithProgram],
   by simp [processBatch, processRow_txWithProgram, isHasSwapMark]⟩

theorem processFoldSwap (rows : List TxRawRow) (ops : List DbOp) (s : ℕ) :
    (rows.foldl (fun (acc : List DbOp × ℕ) r => (acc.1 ++ processRow r, r.slot)) (ops, s)).1.countP
        isHasSwapMark = ops.countP isHasSwapMark
    ∧ (rows.foldl (fun (acc : List DbOp × ℕ) r => (acc.1 ++ processRow r, r.slot)) (ops, s)).2
        = rows.foldl (fun _ r => r.slot) s := by
  induction rows generalizing ops s with
  | nil => simp
  | cons r rest ih =>
      have hrow : (processRow r).countP isHasSwapMark = 0 := by
        simp only [processRow]
        cases infer_swap r.tx <;> simp [isHasSwapMark]
      simp only [List.foldl_cons]
      refine ⟨?_, (ih _ _).2⟩
      rw [(ih _ _).1, List.countP_append, hrow]
      omega

/-- C7 (amended): the swap parser never writes `parsed_sig.has_swap` — for no
processed row does a has_swap upsert appear among the issued statements;
instead it advances the `parser_swap` cursor past every processed row's slot
(to the last row's slot), whether or not a SwapEvent was emitted. -/
theorem swap_parser_never_marks (rows : List TxRawRow) (last : ℕ) :
    (processBatch rows last).1.countP isHasSwapMark = 0
    ∧ (processBatch rows last).2 = rows.foldl (fun _ r => r.slot) last
    ∧ DbOp.setCursor (rows.foldl (fun _ r => r.slot) last) ∈ (processBatch rows last).1 := by
  have h := processFoldSwap rows [] last
  simp only [processBatch]
  refine ⟨?_, h.2, ?_⟩
  · rw [List.countP_append, h.1]
    simp [isHasSwapMark]
  · rw [h.2]
    exact List.mem_append_right _ (List.mem_singleton.mpr rfl)

/-- C6 (counterexample): a transaction whose account keys contain the
configured Raydium AMM program ID still gets pool = "MINTA-MINTB" (the
base-quote mint concatenation), not the program ID. -/
theorem swap_pool_ignores_program_cex :
    ParserLp.detect_program_id txWithProgram = some ParserLp.RAYDIUM_AMM
    ∧ processRow ⟨"sig6", 42, txWithProgram⟩ = [DbOp.insertSwapEvent evWithProgram]
    ∧ evWithProgram.pool = "MINTA-MINTB"
    ∧ evWithProgram.pool ≠ ParserLp.RAYDIUM_AMM :=
  ⟨by decide, processRow_txWithProgram, rfl, by decide⟩

/-- C6 (amended): every SwapEvent the swap parser emits carries pool
identifier `base_mint ++ "-" ++ quote_mint` of the inferred swap, and the
emitted statements do not depend on the transaction's account keys or
instruction program ids at all (so a configured AMM program ID is never
used). -/
theorem swap_pool_always_concat (r : TxRawRow) (ev : SwapEventRow)
    (hmem : DbOp.insertSwapEvent ev ∈ processRow r) :
    (∃ g, infer_swap r.tx = some g
        ∧ ev.pool = optStr g.base_mint ++ "-" ++ optStr g.quote_mint)
    ∧ ∀ keys ipids,
        processRow
          ⟨r.sig, r.slot,
           { r.tx with accountKeys := keys, instructionProgramIds := ipids }⟩
          = processRow r := by
  constructor
  · revert hmem
    simp only [processRow]
    cases hg : infer_swap r.tx with
    | none => simp
    | some g =>
        intro hmem
        simp only [List.mem_singleton, DbOp.insertSwapEvent.injEq] at hmem
        exact ⟨g, rfl, by rw [hmem]⟩
  · intro keys ipids
    obtain ⟨sig, slot, tx⟩ := r
    obtain ⟨pre, post, ak, ip, bt⟩ := tx
    rfl

theorem swap_pool_always_concat_witness :
    ∃ g, infer_swap txWithProgram = some g
      ∧ evWithProgram.pool = optStr g.base_mint ++ "-" ++ optStr g.quote_mint :=
  (swap_pool_always_concat ⟨"sig6", 42, txWithProgram⟩ evWithProgram
    (by rw [processRow_txWithProgram]; exact List.mem_singleton.mpr rfl)).1

end ParserSwap

namespace Executor

theorem countSid_append (ps qs : List PositionRow) (sid : String) :
    countSid (ps ++ qs) sid = countSid ps sid + countSid qs sid := by
  simp [countSid, List.filter_append]

theorem openForSignal_pres (s : DetSignal) (st : ExecState)
    (h : ∀ sid, countSid st.positions sid ≤ 1) :
    ∀ sid, countSid (openForSignal s st).positions sid ≤ 1 := by
  intro sid
  unfold openForSignal
  split
  · exact h sid
  · rename_i hex
    rw [countSid_append]
    by_cases hsid : toString s.id = sid
    · have h0 : countSid st.positions sid = 0 := by
        rw [← hsid]
        simp only [signal_exists, List.any_eq_true, not_exists, not_and] at hex
        have hnil : st.positions.filter (fun p => p.meta_signal_id == toString s.id) = [] := by
          rw [List.filter_eq_nil_iff]
          intro p hp
          simpa using hex p hp
        simp [countSid, hnil]
      rw [h0]
      have hc1 : countSid
          [{ id := st.next_uuid, pool := s.pool, token := "SOL", size_sol := 0,
             entry_px := 1, slippage_bps := 0, state := "open", status := "open",
             signal_type := s.signal_type, reason := s.reason, entry_price := 1,
             meta_signal_id := toString s.id, meta_source := "detector_signal",
             meta_mode := "paper" }] sid ≤ 1 := by
        simpa [countSid] using
          List.length_filter_le (fun p : PositionRow => p.meta_signal_id == sid)
            [{ id := st.next_uuid, pool := s.pool, token := "SOL", size_sol := 0,
               entry_px := 1, slippage_bps := 0, state := "open", status := "open",
               signal_type := s.signal_type, reason := s.reason, entry_price := 1,
               meta_signal_id := toString s.id, meta_source := "detector_signal",
               meta_mode := "paper" }]
      omega
    · have h1 : countSid
          [{ id := st.next_uuid, pool := s.pool, token := "SOL", size_sol := 0,
             entry_px := 1, slippage_bps := 0, state := "open", status := "open",
             signal_type := s.signal_type, reason := s.reason, entry_price := 1,
             meta_signal_id := toString s.id, meta_source := "detector_signal",
             meta_mode := "paper" }] sid = 0 := by
        simp [countSid, hsid]
      rw [h1]
      have := h sid
      omega

theorem process_batch_pres (signals : List DetSignal) (st : ExecState)
    (h : ∀ sid, countSid st.positions sid ≤ 1) :
    ∀ sid, countSid (process_batch signals st).positions sid ≤ 1 := by
  induction signals generalizing st with
  | nil => exact h
  | cons s rest ih =>
      simp only [process_batch, List.foldl_cons]
      exact ih (openForSignal s st) (openForSignal_pres s st h)

/-- C1: starting from any database state in which no DetectorSignal id is
referenced by more than one Position, any number of executor polling ticks —
each running the dedup check (`EXISTS_SQL` on `meta->>'signal_id'`) before
inserting — leaves at most one Position per signal id: reprocessing the same
signal in any later batch never opens a second Position. -/
theorem executor_signal_exclusive (batches : List (List DetSignal)) (st : ExecState)
    (h : ∀ sid, countSid st.positions sid ≤ 1) :
    ∀ sid, countSid (runBatches batches st).positions sid ≤ 1 := by
  induction batches generalizing st with
  | nil => exact h
  | cons b rest ih =>
      simp only [runBatches, List.foldl_cons]
      exact ih (process_batch b st) (process_batch_pres b st h)

theorem executor_signal_exclusive_witness :
    countSid (runBatches [[⟨7, "AAA", "long", none⟩], [⟨7, "AAA", "long", none⟩]]
      ⟨[], [], 0⟩).positions "7" ≤ 1 :=
  executor_signal_exclusive [[⟨7, "AAA", "long", none⟩], [⟨7, "AAA", "long", none⟩]]
    ⟨[], [], 0⟩ (fun sid => by simp [countSid]) "7"

end Executor

namespace Detector

theorem detectorTick_eq (th : Thresholds) (dedup now : ℚ) (snapshot : List FeatureRow)
    (st : List SignalRow) :
    detectorTick th dedup now snapshot st = snapshot.foldl (detectorStep th dedup now) st :=
  rfl

/-- Case analysis of one detector step: skipped (empty pool or failed rule),
blocked by the dedup guard, or an actual guarded insert. -/
theorem detectorStep_cases (th : Thresholds) (dedup now : ℚ) (st : List SignalRow)
    (r : FeatureRow) :
    (detectorStep th dedup now st r = st
      ∧ (pyStrip (r.pool.getD "") = "" ∨ (rule_pass th r).1 = false))
    ∨ (detectorStep th dedup now st r = st
      ∧ ∃ s ∈ st, s.pool = pyStrip (r.pool.getD "") ∧ s.signal_type = "long"
          ∧ now - dedup ≤ s.created_at)
    ∨ (detectorStep th dedup now st r
        = st ++ [{ id := st.length, pool := pyStrip (r.pool.getD ""), signal_type := "long",
                   reason := (rule_pass th r).2, created_at := now }]
      ∧ pyStrip (r.pool.getD "") ≠ "" ∧ (rule_pass th r).1 = true
      ∧ ∀ s ∈ st, ¬(s.pool = pyStrip (r.pool.getD "") ∧ s.signal_type = "long"
          ∧ now - dedup ≤ s.created_at)) := by
  unfold detectorStep
  by_cases hq : pyStrip (r.pool.getD "") = ""
  · exact Or.inl ⟨by simp [hq], Or.inl hq⟩
  · by_cases hps : (rule_pass th r).1 = true
    · simp only [if_neg hq, hps, if_true]
      unfold insert_signal
      by_cases hg : st.any (fun s => s.pool == pyStrip (r.pool.getD "")
          && s.signal_type == SIGNAL_TYPE && decide (now - dedup ≤ s.created_at)) = true
      · refine Or.inr (Or.inl ⟨by rw [if_pos hg], ?_⟩)
        simp only [List.any_eq_true, Bool.and_eq_true, beq_iff_eq, decide_eq_true_eq,
          SIGNAL_TYPE] at hg
        obtain ⟨s, hs, ⟨h1, h2⟩, h3⟩ := hg
        exact ⟨s, hs, h1, h2, h3⟩
      · refine Or.inr (Or.inr ⟨by rw [if_neg hg]; rfl, hq, trivial, ?_⟩)
        simp only [List.any_eq_true, Bool.and_eq_true, beq_iff_eq, decide_eq_true_eq,
          SIGNAL_TYPE, not_exists, not_and] at hg
        push_neg at hg
        intro s hs hcon
        exact absurd hcon.2.2 (not_le.mpr (hg s hs ⟨hcon.1, hcon.2.1⟩))
    · refine Or.inl ⟨?_, Or.inr (by simpa using hps)⟩
      simp only [if_neg hq]
      simp [hps]

theorem insert_bounded (dedup now : ℚ) (pool stype reason : String)
    (st : List SignalRow) (hB : Bounded now st) :
    Bounded now (insert_signal dedup now pool stype reason st) := by
  unfold insert_signal
  split
  · exact hB
  · intro s hs
    rcases List.mem_append.mp hs with h | h
    · exact hB s h
    · rw [List.mem_singleton] at h
      subst h
      exact le_refl now

theorem insert_sep (dedup now : ℚ) (pool stype reason : String)
    (st : List SignalRow) (hSep : Sep dedup st) (hB : Bounded now st) :
    Sep dedup (insert_signal dedup now pool stype reason st) := by
  unfold insert_signal
  split
  · exact hSep
  · rename_i hg
    unfold Sep
    rw [List.pairwise_append]
    refine ⟨hSep, List.pairwise_singleton _ _, ?_⟩
    intro a ha b hb
    rw [List.mem_singleton] at hb
    subst hb
    intro hpool hstype
    simp only [List.any_eq_true, Bool.and_eq_true, beq_iff_eq, decide_eq_true_eq,
      not_exists, not_and] at hg
    push_neg at hg
    have hlt : a.created_at < now - dedup := by
      refine hg a ha ⟨by simpa using hpool, by simpa using hstype⟩
    have hle : a.created_at ≤ now := hB a ha
    rw [abs_sub_comm, abs_of_nonneg (by simpa using sub_nonneg.mpr hle)]
    simp only
    linarith

theorem step_sep_bounded (th : Thresholds) (dedup now : ℚ) (st : List SignalRow)
    (r : FeatureRow) (hSep : Sep dedup st) (hB : Bounded now st) :
    Sep dedup (detectorStep th dedup now st r)
    ∧ Bounded now (detectorStep th dedup now st r) := by
  unfold detectorStep
  by_cases hq : pyStrip (r.pool.getD "") = ""
  · simp only [if_pos hq]
    exact ⟨hSep, hB⟩
  · simp only [if_neg hq]
    by_cases hps : (rule_pass th r).1 = true
    · simp only [hps, if_true]
      exact ⟨insert_sep _ _ _ _ _ _ hSep hB, insert_bounded _ _ _ _ _ _ hB⟩
    · simp only [hps]
      simp only [Bool.false_eq_true, if_false]
      exact ⟨hSep, hB⟩

theorem tick_sep_bounded (th : Thresholds) (dedup now : ℚ) (snapshot : List FeatureRow)
    (st : List SignalRow) (hSep : Sep dedup st) (hB : Bounded now st) :
    Sep dedup (detectorTick th dedup now snapshot st)
    ∧ Bounded now (detectorTick th dedup now snapshot st) := by
  rw [detectorTick_eq]
  induction snapshot generalizing st with
  | nil => exact ⟨hSep, hB⟩
  | cons r rest ih =>
      rw [List.foldl_cons]
      obtain ⟨h1, h2⟩ := step_sep_bounded th dedup now st r hSep hB
      exact ih _ h1 h2

theorem countSig_append_one (st : List SignalRow) (row : SignalRow) (p : String) :
    countSig (st ++ [row]) p "long"
      = countSig st p "long" + (if row.pool = p ∧ row.signal_type = "long" then 1 else 0) := by
  simp only [countSig, List.filter_append, List.length_append]
  congr 1
  by_cases h : row.pool = p ∧ row.signal_type = "long"
  · simp [h.1, h.2, if_pos h]
  · rw [if_neg h]
    have hb : (row.pool == p && row.signal_type == "long") = false := by
      rcases not_and_or.mp h with h1 | h1 <;> simp [h1]
    simp [List.filter, hb]

theorem fold_count_blocked (th : Thresholds) (dedup now : ℚ) (snapshot : List FeatureRow)
    (st : List SignalRow) (p : String) (s₀ : SignalRow)
    (hmem : s₀ ∈ st) (hs1 : s₀.pool = p) (hs2 : s₀.signal_type = "long")
    (hs3 : now - dedup ≤ s₀.created_at) :
    countSig (snapshot.foldl (detectorStep th dedup now) st) p "long" = countSig st p "long"
    ∧ s₀ ∈ snapshot.foldl (detectorStep th dedup now) st := by
  induction snapshot generalizing st with
  | nil => exact ⟨rfl, hmem⟩
  | cons r rest ih =>
      rw [List.foldl_cons]
      rcases detectorStep_cases th dedup now st r with ⟨heq, _⟩ | ⟨heq, _⟩ |
        ⟨heq, hq, hps, hnone⟩
      · rw [heq]; exact ih st hmem
      · rw [heq]; exact ih st hmem
      · by_cases hqp : pyStrip (r.pool.getD "") = p
        · exact absurd ⟨by rw [hs1, hqp], hs2, hs3⟩ (hnone s₀ hmem)
        · rw [heq]
          have h2 := ih (st ++ [(⟨st.length, pyStrip (r.pool.getD ""), "long", (rule_pass th r).2, now⟩ : SignalRow)]) (List.mem_append_left _ hmem)
          refine ⟨?_, h2.2⟩
          rw [h2.1, countSig_append_one, if_neg (fun hcon => hqp hcon.1)]
          omega

theorem fold_count_insert (th : Thresholds) (dedup now : ℚ) (snapshot : List FeatureRow)
    (st : List SignalRow) (p : String)
    (hd : 0 ≤ dedup) (hp : p ≠ "")
    (hNR : NoRecent p dedup now st)
    (hrow : ∃ r ∈ snapshot, pyStrip (r.pool.getD "") = p ∧ (rule_pass th r).1 = true) :
    countSig (snapshot.foldl (detectorStep th dedup now) st) p "long"
        = countSig st p "long" + 1
    ∧ ∃ s ∈ snapshot.foldl (detectorStep th dedup now) st,
        s.pool = p ∧ s.signal_type = "long" ∧ s.created_at = now := by
  induction snapshot generalizing st with
  | nil => simp at hrow
  | cons r rest ih =>
      rw [List.foldl_cons]
      by_cases hfire : pyStrip (r.pool.getD "") = p ∧ (rule_pass th r).1 = true
      · rcases detectorStep_cases th dedup now st r with ⟨heq, hbad⟩ |
          ⟨heq, s, hs, hs1, hs2, hs3⟩ | ⟨heq, hq, hps, hnone⟩
        · rcases hbad with hbad | hbad
          · exact absurd (hbad ▸ hfire.1).symm hp
          · rw [hfire.2] at hbad
            exact absurd hbad (by simp)
        · have := hNR s hs (hs1.trans hfire.1) hs2
          linarith
        · rw [heq]
          have h2 := fold_count_blocked th dedup now rest
            (st ++ [(⟨st.length, pyStrip (r.pool.getD ""), "long", (rule_pass th r).2, now⟩ : SignalRow)]) p
            (⟨st.length, pyStrip (r.pool.getD ""), "long", (rule_pass th r).2, now⟩ : SignalRow)
            (List.mem_append_right _ (List.mem_singleton.mpr rfl)) hfire.1 rfl (by linarith)
          refine ⟨?_, ?_⟩
          · rw [h2.1, countSig_append_one, if_pos ⟨hfire.1, rfl⟩]
          · exact ⟨_, h2.2, hfire.1, rfl, rfl⟩
      · have hrow' : ∃ r' ∈ rest, pyStrip (r'.pool.getD "") = p ∧ (rule_pass th r').1 = true := by
          obtain ⟨r', hr', hprop⟩ := hrow
          rcases List.mem_cons.mp hr' with hre | hm
          · exact absurd (hre ▸ hprop) hfire
          · exact ⟨r', hm, hprop⟩
        rcases detectorStep_cases th dedup now st r with ⟨heq, _⟩ | ⟨heq, _⟩ |
          ⟨heq, hq, hps, hnone⟩
        · rw [heq]; exact ih st hNR hrow'
        · rw [heq]; exact ih st hNR hrow'
        · have hqp : pyStrip (r.pool.getD "") ≠ p := fun hcon => hfire ⟨hcon, hps⟩
          rw [heq]
          have hNR' : NoRecent p dedup now (st ++ [(⟨st.length, pyStrip (r.pool.getD ""), "long", (rule_pass th r).2, now⟩ : SignalRow)]) := by
            intro s hs hsp hst
            rcases List.mem_append.mp hs with hm | hm
            · exact hNR s hm hsp hst
            · rw [List.mem_singleton] at hm
              subst hm
              exact absurd hsp hqp
          have h2 := ih _ hNR' hrow'
          refine ⟨?_, h2.2⟩
          rw [h2.1, countSig_append_one, if_neg (fun hcon => hqp hcon.1)]

/-- C3: the detector's guarded insert (`INSERT_SIGNAL_SQL`) keeps any two
same-(pool, signal_type) signals more than `dedup` seconds apart (so at most
one per dedup window), and a second poll at `t2` within `dedup` of `t1` over
the same snapshot inserts nothing new for the passing pool: two polls yield
exactly one new signal for it. -/
theorem detector_dedup_window (th : Thresholds) (dedup t1 t2 : ℚ) (p : String)
    (snapshot : List FeatureRow) (st0 : List SignalRow)
    (hd : 0 ≤ dedup) (hSep : Sep dedup st0) (hB : Bounded t1 st0)
    (h12 : t1 ≤ t2) (hWin : t2 - t1 ≤ dedup) (hp : p ≠ "")
    (hrow : ∃ r ∈ snapshot, pyStrip (r.pool.getD "") = p ∧ (rule_pass th r).1 = true)
    (hNR : NoRecent p dedup t1 st0) :
    Sep dedup (detectorTick th dedup t2 snapshot (detectorTick th dedup t1 snapshot st0))
    ∧ countSig (detectorTick th dedup t2 snapshot
        (detectorTick th dedup t1 snapshot st0)) p "long"
      = countSig st0 p "long" + 1 := by
  have ht1 := tick_sep_bounded th dedup t1 snapshot st0 hSep hB
  have hB2 : Bounded t2 (detectorTick th dedup t1 snapshot st0) :=
    fun s hs => le_trans (ht1.2 s hs) h12
  have ht2 := tick_sep_bounded th dedup t2 snapshot _ ht1.1 hB2
  refine ⟨ht2.1, ?_⟩
  have h1 := fold_count_insert th dedup t1 snapshot st0 p hd hp hNR hrow
  obtain ⟨s₀, hs₀mem, hs₀p, hs₀t, hs₀c⟩ := h1.2
  have h2 := fold_count_blocked th dedup t2 snapshot
    (detectorTick th dedup t1 snapshot st0) p s₀
    (by rw [detectorTick_eq]; exact hs₀mem) hs₀p hs₀t (by rw [hs₀c]; linarith)
  simp only [detectorTick_eq] at h2 ⊢
  rw [h2.1, h1.1]

theorem detector_dedup_window_witness :
    Sep 300 (detectorTick defaultThresholds 300 100 [rowPass]
      (detectorTick defaultThresholds 300 0 [rowPass] []))
    ∧ countSig (detectorTick defaultThresholds 300 100 [rowPass]
        (detectorTick defaultThresholds 300 0 [rowPass] [])) "AAA" "long"
      = countSig [] "AAA" "long" + 1 :=
  detector_dedup_window defaultThresholds 300 0 100 "AAA" [rowPass] []
    (by norm_num) (List.Pairwise.nil) (fun s hs => absurd hs (List.not_mem_nil s))
    (by norm_num) (by norm_num) (by decide)
    ⟨rowPass, List.mem_singleton.mpr rfl, by decide,
      by
        norm_num [rule_pass, rowPass, defaultThresholds]
        rw [abs_of_nonneg (by norm_num : (0:ℚ) ≤ 1 / 2000)]
        norm_num⟩
    (fun s hs => absurd hs (List.not_mem_nil s))

end Detector

namespace ExitWorker

theorem partialsCount_def (st : PosState) (lbl : String) (L : ℚ) :
    partialsCount st lbl L = partialsCountL st.exits lbl L := rfl

theorem applyTxns_fire (st : PosState) (f : XFill) (q : ℚ) (t : Tag) (e : ExitRow) :
    applyTxns st [[.insertFill f], [.updateSizeSub q], [.mergeMetaTag t], [.insertExitRow e]]
      = { st with fills := st.fills ++ [f], size_sol := st.size_sol - q,
                  meta := st.meta ++ [t], exits := st.exits ++ [e] } := rfl

theorem partialsCountL_append (l1 l2 : List ExitRow) (lbl : String) (L : ℚ) :
    partialsCountL (l1 ++ l2) lbl L = partialsCountL l1 lbl L + partialsCountL l2 lbl L := by
  simp [partialsCountL, List.filter_append]

theorem partialsCountL_single_same (rLbl : String) (L level ratio px : ℚ) :
    partialsCountL [⟨rLbl ++ "_PARTIAL", .partialInfo level ratio px⟩] rLbl L
      = if level = L then 1 else 0 := by
  by_cases h : level = L
  · simp [partialsCountL, List.filter, h]
  · have hb : (level == L) = false := beq_eq_false_iff_ne.mpr h
    simp [partialsCountL, List.filter, hb, h]

theorem partialsCountL_single_other (lbl rs : String) (hne : rs ≠ lbl ++ "_PARTIAL")
    (meta : ExitMeta) (L : ℚ) :
    partialsCountL [⟨rs, meta⟩] lbl L = 0 := by
  have hb : (rs == lbl ++ "_PARTIAL") = false := beq_eq_false_iff_ne.mpr hne
  simp [partialsCountL, List.filter, hb]

/-- C2 (counterexample): with a configured list holding the same level twice
(`"1.5:0.25,1.5:0.25"` parses to two entries of level 3/2), a single
`_apply_partial` call on a fresh position records TWO partial exits for level
3/2 — the taken-tag set is read once at the top of the call, so the second
entry does not see the tag the first one wrote. -/
theorem exit_partial_duplicate_level_cex :
    partialsCount (applyLevels 1 2 [(3/2, 1/4), (3/2, 1/4)] "SELL" "TP" "TP" posEight).1
      "TP" (3/2) = 2
    ∧ (applyLevels 1 2 [(3/2, 1/4), (3/2, 1/4)] "SELL" "TP" "TP" posEight).1.meta
      = [⟨"TP", 3/2⟩, ⟨"TP", 3/2⟩] := by
  constructor
  · norm_num [applyLevels, applyLevelsGo, applyTxns, applyTxn, applyStmt, posEight, max_def,
      partialsCount, partialsCountL, List.filter]
  · norm_num [applyLevels, applyLevelsGo, applyTxns, applyTxn, applyStmt, posEight, max_def]

theorem applyLevels_txns_concrete :
    (applyLevels 1 2 [(3/2, 1/2)] "SELL" "TP" "TP" posFresh).2
      = [[.insertFill ⟨"SELL", 2, 5⟩], [.updateSizeSub 5], [.mergeMetaTag ⟨"TP", 3/2⟩],
         [.insertExitRow ⟨"TP_PARTIAL", .partialInfo (3/2) (1/2) 2⟩]] := by
  norm_num [applyLevels, applyLevelsGo, applyTxns, applyTxn, applyStmt, posFresh, max_def]
  decide

/-- C4: `_apply_partial` issues the partial Fill insert, the size decrement,
the meta-tag merge and the exit-event insert as four separate autocommitted
statements — no `conn.transaction()` wraps them.  At this concrete input no
transaction of the issued sequence contains all three mutations, and an
interruption after the first transaction leaves a state with the partial Fill
recorded but no meta tag — exactly what the claim says cannot happen. -/
theorem exit_partial_not_atomic :
    (applyLevels 1 2 [(3/2, 1/2)] "SELL" "TP" "TP" posFresh).2
      = [[.insertFill ⟨"SELL", 2, 5⟩], [.updateSizeSub 5], [.mergeMetaTag ⟨"TP", 3/2⟩],
         [.insertExitRow ⟨"TP_PARTIAL", .partialInfo (3/2) (1/2) 2⟩]]
    ∧ ((applyLevels 1 2 [(3/2, 1/2)] "SELL" "TP" "TP" posFresh).2.countP
        (fun txn => txn.any isFillStmt && txn.any isSizeSubStmt && txn.any isMetaMergeStmt)) = 0
    ∧ (applyTxns posFresh
        ((applyLevels 1 2 [(3/2, 1/2)] "SELL" "TP" "TP" posFresh).2.take 1)).fills
      = [⟨"SELL", 2, 5⟩]
    ∧ (applyTxns posFresh
        ((applyLevels 1 2 [(3/2, 1/2)] "SELL" "TP" "TP" posFresh).2.take 1)).meta
      = [] := by
  refine ⟨applyLevels_txns_concrete, ?_, ?_, ?_⟩
  · rw [applyLevels_txns_concrete]
    decide
  · rw [applyLevels_txns_concrete]
    decide
  · rw [applyLevels_txns_concrete]
    decide

theorem applyLevelsGo_inv (taken : List Tag) (curPx mul : ℚ)
    (sideLabel rLbl mTag : String) (levels : List (ℚ × ℚ)) (st : PosState)
    (hNodup : (levels.map Prod.fst).Nodup)
    (hSub : ∀ lr ∈ levels, (⟨mTag, lr.1⟩ : Tag) ∈ st.meta → (⟨mTag, lr.1⟩ : Tag) ∈ taken)
    (hC1 : ∀ L, partialsCountL st.exits rLbl L ≤ 1)
    (hC2 : ∀ L, 1 ≤ partialsCountL st.exits rLbl L → (⟨mTag, L⟩ : Tag) ∈ st.meta) :
    (∀ L, partialsCountL
        (applyLevelsGo taken curPx mul sideLabel rLbl mTag levels st).1.exits rLbl L ≤ 1)
    ∧ (∀ L, 1 ≤ partialsCountL
          (applyLevelsGo taken curPx mul sideLabel rLbl mTag levels st).1.exits rLbl L →
        (⟨mTag, L⟩ : Tag) ∈ (applyLevelsGo taken curPx mul sideLabel rLbl mTag levels st).1.meta)
    ∧ (∀ t ∈ st.meta, t ∈ (applyLevelsGo taken curPx mul sideLabel rLbl mTag levels st).1.meta)
    ∧ (∀ lbl L, rLbl ++ "_PARTIAL" ≠ lbl ++ "_PARTIAL" →
        partialsCountL (applyLevelsGo taken curPx mul sideLabel rLbl mTag levels st).1.exits lbl L
          = partialsCountL st.exits lbl L) := by
  induction levels generalizing st with
  | nil => exact ⟨hC1, hC2, fun t h => h, fun lbl L _ => rfl⟩
  | cons lr rest ih =>
      obtain ⟨level, ratio⟩ := lr
      rw [List.map_cons, List.nodup_cons] at hNodup
      by_cases hc : level ≤ mul ∧ (⟨mTag, level⟩ : Tag) ∉ taken
      · have hstep : applyLevelsGo taken curPx mul sideLabel rLbl mTag ((level, ratio) :: rest) st
            = (let st1 : PosState :=
                { st with fills := st.fills ++ [{ side := sideLabel, px := curPx, qty := st.size_sol * ratio }],
                          size_sol := st.size_sol - st.size_sol * ratio,
                          meta := st.meta ++ [⟨mTag, level⟩],
                          exits := st.exits ++ [{ reason := rLbl ++ "_PARTIAL",
                                                  meta := .partialInfo level ratio curPx }] }
               let res := applyLevelsGo taken curPx mul sideLabel rLbl mTag rest st1
               (res.1, [[Stmt.insertFill { side := sideLabel, px := curPx, qty := st.size_sol * ratio }],
                        [Stmt.updateSizeSub (st.size_sol * ratio)],
                        [Stmt.mergeMetaTag ⟨mTag, level⟩],
                        [Stmt.insertExitRow { reason := rLbl ++ "_PARTIAL",
                                              meta := .partialInfo level ratio curPx }]] ++ res.2)) := by
          rw [applyLevelsGo, if_pos hc]
          rfl
        rw [hstep]
        set st1 : PosState :=
          { st with fills := st.fills ++ [{ side := sideLabel, px := curPx, qty := st.size_sol * ratio }],
                    size_sol := st.size_sol - st.size_sol * ratio,
                    meta := st.meta ++ [⟨mTag, level⟩],
                    exits := st.exits ++ [{ reason := rLbl ++ "_PARTIAL",
                                            meta := .partialInfo level ratio curPx }] } with hst1
        have hmeta1 : st1.meta = st.meta ++ [⟨mTag, level⟩] := by rw [hst1]
        have hexits1 : st1.exits = st.exits ++ [(⟨rLbl ++ "_PARTIAL", ExitMeta.partialInfo level ratio curPx⟩ : ExitRow)] := by rw [hst1]
        have hzero : partialsCountL st.exits rLbl level = 0 := by
          have hnm : (⟨mTag, level⟩ : Tag) ∉ st.meta := by
            intro hmem
            exact hc.2 (hSub (level, ratio) (List.mem_cons_self _ _) hmem)
          by_contra hne
          exact hnm (hC2 level (by omega))
        have hC1' : ∀ L, partialsCountL st1.exits rLbl L ≤ 1 := by
          intro L
          rw [hexits1, partialsCountL_append, partialsCountL_single_same]
          by_cases hL : level = L
          · subst hL
            rw [hzero]
            simp
          · rw [if_neg hL]
            have := hC1 L
            omega
        have hC2' : ∀ L, 1 ≤ partialsCountL st1.exits rLbl L →
            (⟨mTag, L⟩ : Tag) ∈ st1.meta := by
          intro L hcnt
          rw [hexits1, partialsCountL_append, partialsCountL_single_same] at hcnt
          rw [hmeta1]
          by_cases hL : level = L
          · subst hL
            exact List.mem_append_right _ (List.mem_singleton.mpr rfl)
          · rw [if_neg hL] at hcnt
            exact List.mem_append_left _ (hC2 L (by omega))
        have hSub' : ∀ lr ∈ rest, (⟨mTag, lr.1⟩ : Tag) ∈ st1.meta →
            (⟨mTag, lr.1⟩ : Tag) ∈ taken := by
          intro lr hmem htag
          rw [hmeta1] at htag
          rcases List.mem_append.mp htag with hm | hm
          · exact hSub lr (List.mem_cons_of_mem _ hmem) hm
          · rw [List.mem_singleton] at hm
            have hlv : lr.1 = level := congrArg Tag.level hm
            exact absurd (List.mem_map.mpr ⟨lr, hmem, hlv⟩) hNodup.1
        obtain ⟨i1, i2, i3, i4⟩ := ih st1 hNodup.2 hSub' hC1' hC2'
        refine ⟨i1, i2, ?_, ?_⟩
        · intro t ht
          exact i3 t (by rw [hmeta1]; exact List.mem_append_left _ ht)
        · intro lbl L hne
          rw [i4 lbl L hne, hexits1, partialsCountL_append,
            partialsCountL_single_other lbl _ hne _ L]
          omega
      · have hstep : applyLevelsGo taken curPx mul sideLabel rLbl mTag ((level, ratio) :: rest) st
            = applyLevelsGo taken curPx mul sideLabel rLbl mTag rest st := by
          rw [applyLevelsGo, if_neg hc]
        rw [hstep]
        exact ih st hNodup.2
          (fun lr hmem htag => hSub lr (List.mem_cons_of_mem _ hmem) htag) hC1 hC2

theorem applyLevels_inv (entryPx curPx : ℚ) (levels : List (ℚ × ℚ))
    (sideLabel lbl : String) (st : PosState)
    (hNodup : (levels.map Prod.fst).Nodup)
    (hC1 : ∀ L, partialsCountL st.exits lbl L ≤ 1)
    (hC2 : ∀ L, 1 ≤ partialsCountL st.exits lbl L → (⟨lbl, L⟩ : Tag) ∈ st.meta) :
    (∀ L, partialsCountL
        (applyLevels entryPx curPx levels sideLabel lbl lbl st).1.exits lbl L ≤ 1)
    ∧ (∀ L, 1 ≤ partialsCountL
          (applyLevels entryPx curPx levels sideLabel lbl lbl st).1.exits lbl L →
        (⟨lbl, L⟩ : Tag) ∈ (applyLevels entryPx curPx levels sideLabel lbl lbl st).1.meta)
    ∧ (∀ t ∈ st.meta, t ∈ (applyLevels entryPx curPx levels sideLabel lbl lbl st).1.meta)
    ∧ (∀ lbl2 L, lbl ++ "_PARTIAL" ≠ lbl2 ++ "_PARTIAL" →
        partialsCountL (applyLevels entryPx curPx levels sideLabel lbl lbl st).1.exits lbl2 L
          = partialsCountL st.exits lbl2 L) :=
  applyLevelsGo_inv st.meta curPx (curPx / max entryPx (1 / 10 ^ 12)) sideLabel lbl lbl
    levels st hNodup (fun _ _ h => h) hC1 hC2

theorem applyLevels_TagInv (entryPx curPx : ℚ) (levels : List (ℚ × ℚ))
    (sideLabel : String) (st : PosState) (lbl : String)
    (hlbl : lbl = "TP" ∨ lbl = "SL")
    (hNodup : (levels.map Prod.fst).Nodup)
    (hInv : TagInv st) :
    TagInv (applyLevels entryPx curPx levels sideLabel lbl lbl st).1 := by
  rcases hlbl with rfl | rfl
  · obtain ⟨i1, i2, i3, i4⟩ := applyLevels_inv entryPx curPx levels sideLabel "TP" st hNodup
      (fun L => (hInv L).1.1) (fun L => (hInv L).1.2)
    intro L
    refine ⟨⟨i1 L, i2 L⟩, ?_, ?_⟩
    · show partialsCountL _ "SL" L ≤ 1
      rw [i4 "SL" L (by decide)]
      exact (hInv L).2.1
    · intro hc
      have hc' : 1 ≤ partialsCountL st.exits "SL" L := by
        have := i4 "SL" L (by decide)
        rw [partialsCount_def] at hc
        omega
      exact i3 _ ((hInv L).2.2 hc')
  · obtain ⟨i1, i2, i3, i4⟩ := applyLevels_inv entryPx curPx levels sideLabel "SL" st hNodup
      (fun L => (hInv L).2.1) (fun L => (hInv L).2.2)
    intro L
    refine ⟨⟨?_, ?_⟩, i1 L, i2 L⟩
    · show partialsCountL _ "TP" L ≤ 1
      rw [i4 "TP" L (by decide)]
      exact (hInv L).1.1
    · intro hc
      have hc' : 1 ≤ partialsCountL st.exits "TP" L := by
        have := i4 "TP" L (by decide)
        rw [partialsCount_def] at hc
        omega
      exact i3 _ ((hInv L).1.2 hc')

theorem close_full_TagInv (sideLabel : String) (curPx : ℚ) (reason : String)
    (meta : ExitMeta) (st : PosState)
    (h1 : reason ≠ "TP" ++ "_PARTIAL") (h2 : reason ≠ "SL" ++ "_PARTIAL")
    (hInv : TagInv st) :
    TagInv (close_full sideLabel curPx reason meta st) := by
  intro L
  have e1 : partialsCount (close_full sideLabel curPx reason meta st) "TP" L
      = partialsCount st "TP" L := by
    rw [partialsCount_def, partialsCount_def]
    show partialsCountL (st.exits ++ [⟨reason, meta⟩]) "TP" L = _
    rw [partialsCountL_append, partialsCountL_single_other "TP" reason h1 meta L]
    omega
  have e2 : partialsCount (close_full sideLabel curPx reason meta st) "SL" L
      = partialsCount st "SL" L := by
    rw [partialsCount_def, partialsCount_def]
    show partialsCountL (st.exits ++ [⟨reason, meta⟩]) "SL" L = _
    rw [partialsCountL_append, partialsCountL_single_other "SL" reason h2 meta L]
    omega
  have hm : (close_full sideLabel curPx reason meta st).meta = st.meta := rfl
  rw [e1, e2, hm]
  exact hInv L

theorem partialsPhase_TagInv (entryPx px : ℚ) (tpLevels slLevels : List (ℚ × ℚ))
    (st : PosState)
    (hTp : (tpLevels.map Prod.fst).Nodup) (hSl : (slLevels.map Prod.fst).Nodup)
    (hInv : TagInv st) :
    TagInv (partialsPhase entryPx px tpLevels slLevels st) := by
  unfold partialsPhase
  by_cases h1 : tpLevels ≠ []
  · simp only [if_pos h1]
    by_cases h2 : slLevels ≠ []
    · simp only [if_pos h2]
      exact applyLevels_TagInv _ _ _ _ _ "SL" (Or.inr rfl) hSl
        (applyLevels_TagInv _ _ _ _ _ "TP" (Or.inl rfl) hTp hInv)
    · simp only [if_neg h2]
      exact applyLevels_TagInv _ _ _ _ _ "TP" (Or.inl rfl) hTp hInv
  · simp only [if_neg h1]
    by_cases h2 : slLevels ≠ []
    · simp only [if_pos h2]
      exact applyLevels_TagInv _ _ _ _ _ "SL" (Or.inr rfl) hSl hInv
    · simp only [if_neg h2]
      exact hInv

theorem tickPos_TagInv (tpMult slMult : ℚ) (tpLevels slLevels : List (ℚ × ℚ))
    (lp : Option ℚ) (st : PosState)
    (hTp : (tpLevels.map Prod.fst).Nodup) (hSl : (slLevels.map Prod.fst).Nodup)
    (hInv : TagInv st) :
    TagInv (tickPos tpMult slMult tpLevels slLevels lp st) := by
  unfold tickPos
  by_cases h1 : st.state ≠ "OPEN"
  · simp only [if_pos h1]
    exact hInv
  · simp only [if_neg h1]
    cases lp with
    | none => exact hInv
    | some px =>
        by_cases h2 : px ≤ 0
        · simp only [if_pos h2]
          exact hInv
        · simp only [if_neg h2]
          have hph := partialsPhase_TagInv st.entry_px px tpLevels slLevels st hTp hSl hInv
          by_cases h3 : st.entry_px * tpMult ≤ px
          · simp only [if_pos h3]
            exact close_full_TagInv _ _ _ _ _ (by decide) (by decide) hph
          · simp only [if_neg h3]
            by_cases h4 : px ≤ st.entry_px * slMult
            · simp only [if_pos h4]
              exact close_full_TagInv _ _ _ _ _ (by decide) (by decide) hph
            · simp only [if_neg h4]
              exact hph

theorem runTicks_TagInv (tpMult slMult : ℚ) (tpLevels slLevels : List (ℚ × ℚ))
    (pxs : List (Option ℚ)) (st : PosState)
    (hTp : (tpLevels.map Prod.fst).Nodup) (hSl : (slLevels.map Prod.fst).Nodup)
    (hInv : TagInv st) :
    TagInv (runTicks tpMult slMult tpLevels slLevels pxs st) := by
  induction pxs generalizing st with
  | nil => exact hInv
  | cons px rest ih =>
      simp only [runTicks, List.foldl_cons]
      exact ih _ (tickPos_TagInv tpMult slMult tpLevels slLevels px st hTp hSl hInv)

/-- C2 (amended): provided the configured partial lists contain no duplicate
levels, at most one partial fill is ever recorded per (position, side, level)
across any sequence of exit-worker ticks: each `_apply_partial` call checks
the tag set read from `Position.meta` at the top of the call and writes the
per-level tag when it fires, so a level whose tag is present at the start of
a tick is never re-executed. -/
theorem exit_partials_at_most_once (tpMult slMult : ℚ)
    (tpLevels slLevels : List (ℚ × ℚ)) (pxs : List (Option ℚ)) (st0 : PosState)
    (hTp : (tpLevels.map Prod.fst).Nodup) (hSl : (slLevels.map Prod.fst).Nodup)
    (hInv : TagInv st0) (L : ℚ) :
    partialsCount (runTicks tpMult slMult tpLevels slLevels pxs st0) "TP" L ≤ 1
    ∧ partialsCount (runTicks tpMult slMult tpLevels slLevels pxs st0) "SL" L ≤ 1 :=
  ⟨(runTicks_TagInv tpMult slMult tpLevels slLevels pxs st0 hTp hSl hInv L).1.1,
   (runTicks_TagInv tpMult slMult tpLevels slLevels pxs st0 hTp hSl hInv L).2.1⟩

theorem exit_partials_at_most_once_witness :
    partialsCount (runTicks 2 (3 / 10) [(3 / 2, 1 / 4), (7 / 4, 1 / 2)] []
        [some (8 / 5), some (8 / 5)] posEight) "TP" (3 / 2) ≤ 1
    ∧ partialsCount (runTicks 2 (3 / 10) [(3 / 2, 1 / 4), (7 / 4, 1 / 2)] []
        [some (8 / 5), some (8 / 5)] posEight) "SL" (3 / 2) ≤ 1 :=
  exit_partials_at_most_once 2 (3 / 10) [(3 / 2, 1 / 4), (7 / 4, 1 / 2)] []
    [some (8 / 5), some (8 / 5)] posEight
    (by norm_num) (by norm_num)
    (fun L => by
      constructor <;> constructor <;>
        simp [partialsCount, partialsCountL, posEight]) (3 / 2)

/-- C5: for an OPEN position with latest price `px > 0`, if
`px ≥ entry_px * TP_MULT` the tick closes the position: one SELL Fill for the
entire remaining size (after this tick's partial phase) at `px`,
`state = CLOSED`, and an ExitEvent with reason TP_HIT; symmetrically, when
`0 < SL_MULT < TP_MULT` and `px ≤ entry_px * SL_MULT`, with reason SL_HIT;
and once a position is CLOSED a tick never touches it again (no further
partials or fills). -/
theorem exit_full_close (tpMult slMult : ℚ) (tpLevels slLevels : List (ℚ × ℚ))
    (px : ℚ) (st : PosState) (hOpen : st.state = "OPEN") (hPx : 0 < px) :
    (st.entry_px * tpMult ≤ px →
      (tickPos tpMult slMult tpLevels slLevels (some px) st).state = "CLOSED"
      ∧ (tickPos tpMult slMult tpLevels slLevels (some px) st).fills
          = (partialsPhase st.entry_px px tpLevels slLevels st).fills
            ++ [⟨"SELL", px, (partialsPhase st.entry_px px tpLevels slLevels st).size_sol⟩]
      ∧ (tickPos tpMult slMult tpLevels slLevels (some px) st).exits
          = (partialsPhase st.entry_px px tpLevels slLevels st).exits
            ++ [⟨"TP_HIT", .closeInfo st.entry_px px tpMult⟩])
    ∧ (0 < slMult → slMult < tpMult → px ≤ st.entry_px * slMult →
      (tickPos tpMult slMult tpLevels slLevels (some px) st).state = "CLOSED"
      ∧ (tickPos tpMult slMult tpLevels slLevels (some px) st).fills
          = (partialsPhase st.entry_px px tpLevels slLevels st).fills
            ++ [⟨"SELL", px, (partialsPhase st.entry_px px tpLevels slLevels st).size_sol⟩]
      ∧ (tickPos tpMult slMult tpLevels slLevels (some px) st).exits
          = (partialsPhase st.entry_px px tpLevels slLevels st).exits
            ++ [⟨"SL_HIT", .closeInfo st.entry_px px slMult⟩])
    ∧ (∀ lp st2, st2.state = "CLOSED" →
        tickPos tpMult slMult tpLevels slLevels lp st2 = st2) := by
  have hno : ¬st.state ≠ "OPEN" := by simp [hOpen]
  have hnp : ¬px ≤ 0 := not_le.mpr hPx
  refine ⟨?_, ?_, ?_⟩
  · intro h3
    simp only [tickPos, if_neg hno, if_neg hnp, if_pos h3]
    exact ⟨rfl, rfl, rfl⟩
  · intro hs hst h4
    have he : 0 < st.entry_px := by
      by_contra he0
      push_neg at he0
      have : st.entry_px * slMult ≤ 0 :=
        mul_nonpos_iff.mpr (Or.inr ⟨he0, le_of_lt hs⟩)
      linarith
    have hlt : st.entry_px * slMult < st.entry_px * tpMult :=
      mul_lt_mul_of_pos_left hst he
    have hntp : ¬st.entry_px * tpMult ≤ px := by linarith
    simp only [tickPos, if_neg hno, if_neg hnp, if_neg hntp, if_pos h4]
    exact ⟨rfl, rfl, rfl⟩
  · intro lp st2 hcl
    have : st2.state ≠ "OPEN" := by rw [hcl]; decide
    simp only [tickPos, if_pos this]

theorem exit_full_close_witness :
    (tickPos 2 (3 / 10) [] [] (some (5 / 2)) posFresh).state = "CLOSED"
    ∧ (tickPos 2 (3 / 10) [] [] (some (1 / 4)) posFresh).state = "CLOSED" :=
  ⟨((exit_full_close 2 (3 / 10) [] [] (5 / 2) posFresh rfl (by norm_num)).1
      (by norm_num [posFresh])).1,
   (((exit_full_close 2 (3 / 10) [] [] (1 / 4) posFresh rfl (by norm_num)).2.1
      (by norm_num) (by norm_num) (by norm_num [posFresh]))).1⟩

end ExitWorker
